import Mathlib

/-!
# FoodScan — term resolution and enrichment pipeline, shallowly embedded

This file embeds the core of the FoodScan backend in Lean 4 and proves the
testable properties of its specification against that embedding.

Embedded source:
* `controllers/ingredientController.js` — the `getIngredientsAndCheckMissing`
  request handler (validation, normalization, partition, hydration, LLM
  enrichment with JSON-fence extraction, best-effort persistence, response).
* `models/ingredients.js` — the `Ingredient` schema's static `findByTerms`
  and the upsert-if-absent write performed via
  `findOneAndUpdate({name}, {$setOnInsert: ...}, {upsert: true})`.

Modelling conventions:
* JavaScript strings are `List Char`; `String.prototype.toLowerCase` is
  modelled on the ASCII range (the only range the inputs of interest use),
  `trim` drops surrounding whitespace, `split(",")` keeps empty segments.
* The document store is a `List Record`; the atomic conditional insert that
  `findOneAndUpdate` with `upsert: true` and `$setOnInsert` performs is the
  state transition `upsertIfAbsent`.
* `JSON.parse` and the Gemini call are external collaborators: the handler
  is parameterized by a parse oracle `List Char → Option JsValue` and by the
  outcome of the single model call (`Except message rawText`).
* The handler returns, besides the HTTP response and the final store, a log
  of the external calls it made (`Effect`), so "no repository or model call
  is made" and "the enrichment client is invoked exactly once" are statable.
-/

namespace FoodScan

/-! ## JavaScript string primitives -/

/-- The characters removed by `replace(/[\(\)\[\]\{\}]/g, "")`: the two
parentheses (40, 41), square brackets (91, 93) and curly braces (123, 125),
written by code point. -/
def isBracketChar (c : Char) : Bool :=
  decide (c.toNat ∈ [40, 41, 91, 93, 123, 125])

/-- `String.prototype.toLowerCase`, modelled on the ASCII letters
(`Char.toLower` is exactly the basic-latin case fold). -/
def jsLowerChar (c : Char) : Char := Char.toLower c

/-- Lowercase every character of the string. -/
def jsToLower (s : List Char) : List Char := s.map jsLowerChar

/-- `replace(/[\(\)\[\]\{\}]/g, "")`: delete every bracket character. -/
def stripBrackets (s : List Char) : List Char := s.filter (fun c => !(isBracketChar c))

/-- `String.prototype.trim`: drop leading and trailing whitespace. -/
def jsTrim (s : List Char) : List Char :=
  ((s.dropWhile Char.isWhitespace).reverse.dropWhile Char.isWhitespace).reverse

/-- `String.prototype.split(",")`: split on commas, keeping empty segments
(`"".split(",")` is `[""]`, `"a,,b".split(",")` is `["a","","b"]`). -/
def splitOnComma : List Char → List (List Char)
  | [] => [[]]
  | c :: rest =>
    let r := splitOnComma rest
    if c = ',' then [] :: r
    else
      match r with
      | h :: t => (c :: h) :: t
      | [] => [[c]]

/-- `Array.prototype.join(",")`. -/
def joinComma (ts : List (List Char)) : List Char := List.intercalate [','] ts

/-! ## The identifier normalizer

`termsString.split(",").map(t => t.toLowerCase().replace(/[\(\)\[\]\{\}]/g, "").trim())
  .filter(t => t.length > 0)` — from `getIngredientsAndCheckMissing`. -/

def normalizeTerms (s : List Char) : List (List Char) :=
  ((splitOnComma s).map (fun t => jsTrim (stripBrackets (jsToLower t)))).filter
    (fun t => !t.isEmpty)

/-! ## JavaScript values

A shallow model of the dynamic values the handler inspects: the output of
`JSON.parse` and the entries of `req.query`. -/

inductive JsValue where
  | null
  | bool (b : Bool)
  | num (n : Int)
  | str (s : List Char)
  | arr (elems : List JsValue)
  | obj (fields : List (List Char × JsValue))

/-- JavaScript truthiness of a value. -/
def truthy : JsValue → Bool
  | JsValue.null => false
  | JsValue.bool b => b
  | JsValue.num n => n != 0
  | JsValue.str s => !s.isEmpty
  | JsValue.arr _ => true
  | JsValue.obj _ => true

/-- Property access `v.k`: defined on objects, `undefined` (here `none`)
on everything else. -/
def getField : JsValue → List Char → Option JsValue
  | JsValue.obj fields, k =>
    fields.findSome? (fun p => if p.1 = k then some p.2 else none)
  | _, _ => none

/-- A query-string entry: either a string or some non-string value
(express query parsing can produce arrays/objects for repeated keys). -/
inductive QueryVal where
  | str (s : List Char)
  | other

/-! ## The ingredient record and the repository

`models/ingredients.js`: the persisted document (schema fields), the static
`findByTerms`, and the conditional insert the pipeline performs. -/

structure Record where
  name : List Char
  display_name : List Char
  aliases : List (List Char) := []
  functions : List (List Char) := []
  health_rating : Option Int := none
  rating_rationale : Option (List Char) := none
  potential_side_effects : List (List Char) := []
  source : List Char := "LLM".data
  source_details : Option (List Char) := none
deriving DecidableEq

/-- The argument of `findByTerms` as the JavaScript caller sees it:
either not an array at all, or an array of arbitrary values. -/
inductive JsInput where
  | notArray
  | array (elems : List JsValue)

/-- The defensive filter inside `findByTerms`:
`typeof term === "string" && term.length > 0`. -/
def validTermFilter : JsValue → Option (List Char)
  | JsValue.str s => if s.isEmpty then none else some s
  | _ => none

/-- `Ingredient.findByTerms(termsArray)`: empty/non-array input yields `[]`;
otherwise one `$or`/`$in` query returning every record whose `name` or any
`aliases` entry is among the valid terms. -/
def findByTermsJs (input : JsInput) (db : List Record) : List Record :=
  match input with
  | JsInput.notArray => []
  | JsInput.array elems =>
    if elems.isEmpty then []
    else
      let validTerms := elems.filterMap validTermFilter
      if validTerms.isEmpty then []
      else db.filter (fun r => decide (r.name ∈ validTerms ∨ ∃ a ∈ r.aliases, a ∈ validTerms))

/-- The handler always calls `findByTerms` with an array of strings. -/
def findByTerms (terms : List (List Char)) (db : List Record) : List Record :=
  findByTermsJs (JsInput.array (terms.map JsValue.str)) db

/-- `Ingredient.findOneAndUpdate({name}, {$setOnInsert: data}, {upsert: true,
new: false, runValidators: true})`: the atomic conditional insert — a no-op
when a record with the same `name` exists, an append otherwise. -/
def upsertIfAbsent (db : List Record) (r : Record) : List Record :=
  if ∃ x ∈ db, x.name = r.name then db else db ++ [r]

/-- Number of stored records carrying a given `name`. -/
def countName (db : List Record) (n : List Char) : Nat :=
  (db.filter (fun x => decide (x.name = n))).length

/-! ## Partitioning known vs. unknown terms -/

/-- The membership set built from the existence probe: every `name` and every
`aliases` entry of the returned records (the JS code accumulates them into a
`Set`; only membership is ever queried, so a list suffices). -/
def foundDbIdentifiers (probe : List Record) : List (List Char) :=
  probe.flatMap (fun r => r.name :: r.aliases)

/-- `new Set(normalizedTerms)`: deduplication keeping first occurrences. -/
def dedupFirstAux : List (List Char) → List (List Char) → List (List Char)
  | _, [] => []
  | seen, t :: rest =>
    if t ∈ seen then dedupFirstAux seen rest
    else t :: dedupFirstAux (t :: seen) rest

def dedupFirst (ts : List (List Char)) : List (List Char) := dedupFirstAux [] ts

/-- The partition loop: each distinct term is pushed to `termsInDB` when the
membership set has it, to `termsNotInDB` otherwise. -/
def partitionTerms (uniq idents : List (List Char)) :
    List (List Char) × List (List Char) :=
  (uniq.filter (fun t => decide (t ∈ idents)),
   uniq.filter (fun t => decide (t ∉ idents)))

/-- The partition the pipeline computes from the raw normalized term list and
the store: probe, membership set, dedup, split. -/
def partsOf (normalized : List (List Char)) (db : List Record) :
    List (List Char) × List (List Char) :=
  partitionTerms (dedupFirst normalized) (foundDbIdentifiers (findByTerms normalized db))

/-- The hydration step: full records for the known terms (skipped when none). -/
def hydratedOf (normalized : List (List Char)) (db : List Record) : List Record :=
  if (partsOf normalized db).1.isEmpty then [] else findByTerms (partsOf normalized db).1 db

/-! ## The JSON-fence extraction heuristic

`jsonString.match(/```(?:json)?\s*([\s\S]*?)\s*```/)` followed by
`if (jsonMatch && jsonMatch[1]) jsonString = jsonMatch[1].trim()`.

The matcher below reproduces the backtracking order of the regex engine for
this fixed pattern: literal backtick fence, then greedy optional `json`, then
greedy `\s*`, then the lazy capture, then greedy `\s*`, then the closing
fence; the overall match is the leftmost one. -/

/-- The backtick character (code point 96). -/
def backtickChar : Char := Char.ofNat 96

def fenceLit : List Char := [backtickChar, backtickChar, backtickChar]

def jsonLit : List Char := ['j', 's', 'o', 'n']

def startsWithL : List Char → List Char → Bool
  | [], _ => true
  | _ :: _, [] => false
  | p :: ps, c :: cs => p == c && startsWithL ps cs

/-- Length of the leading whitespace run. -/
def wsCount (l : List Char) : Nat := (l.takeWhile Char.isWhitespace).length

/-- Can `\s*` followed by the closing fence consume a prefix of `l`?
(`\s*` is greedy but backtracks, so this is an existential over the run.) -/
def matchTail (l : List Char) : Bool :=
  (List.range (wsCount l + 1)).any (fun j => startsWithL fenceLit (l.drop (wsCount l - j)))

/-- The lazy capture `([\s\S]*?)`: the shortest prefix whose remainder is
accepted by `\s*` + closing fence. -/
def matchCapture (l : List Char) : Option (List Char) :=
  (List.range (l.length + 1)).findSome?
    (fun n => if matchTail (l.drop n) then some (l.take n) else none)

/-- After the opening fence (and optional `json`): the greedy `\s*` tries the
longest whitespace run first and backtracks into the lazy capture. -/
def matchAfterOpen (l : List Char) : Option (List Char) :=
  (List.range (wsCount l + 1)).findSome? (fun j => matchCapture (l.drop (wsCount l - j)))

/-- Attempt a match anchored at the head of `l`; returns capture group 1. -/
def matchFenceAt (l : List Char) : Option (List Char) :=
  if startsWithL fenceLit l then
    let l1 := l.drop 3
    match (if startsWithL jsonLit l1 then matchAfterOpen (l1.drop 4) else none) with
    | some cap => some cap
    | none => matchAfterOpen l1
  else none

/-- `String.prototype.match` without the `g` flag: the leftmost match. -/
def firstFenceMatch : List Char → Option (List Char)
  | [] => none
  | c :: rest =>
    match matchFenceAt (c :: rest) with
    | some cap => some cap
    | none => firstFenceMatch rest

/-- The cleaning block of `getIngredientsAndCheckMissing`: trim the raw LLM
text, look for a fenced block, and use the (trimmed) capture only when the
capture is truthy, i.e. a non-empty string. -/
def cleanLlmText (rawText : List Char) : List Char :=
  let jsonString := jsTrim rawText
  match firstFenceMatch jsonString with
  | some cap => if cap.isEmpty then jsonString else jsTrim cap
  | none => jsonString

/-! ## Best-effort persistence of enrichment results -/

/-- External calls the handler performs, in order. -/
inductive Effect where
  | repoProbe (terms : List (List Char))
  | repoFind (terms : List (List Char))
  | llmCall (termsSent : List Char)
  | repoUpsert (name : List Char)
deriving DecidableEq

/-- Keep the string entries of a field expected to be an array of strings
(`item.aliases || []` etc.; non-string entries are left to the store's
schema cast, modelled as dropped). -/
def jsStrArr : Option JsValue → List (List Char)
  | some (JsValue.arr vs) =>
    vs.filterMap (fun v => match v with | JsValue.str s => some s | _ => none)
  | _ => []

/-- One iteration of the save loop: map an LLM item onto the schema and
upsert it. An item whose `ingredient_name` is missing, `null`, not a string
(the `?.toLowerCase()` TypeError is caught per item), or empty after
normalization is skipped; every failure is swallowed, so the loop's only
observable outcomes are a conditional insert or nothing. -/
def processSaveItem (db : List Record) (item : JsValue) : List Record × List Effect :=
  match getField item ("ingredient_name".data) with
  | some (JsValue.str s) =>
    let n := jsTrim (jsToLower s)
    if n.isEmpty then (db, [])
    else
      let dn0 := if s.isEmpty then jsTrim (jsToLower s) else s
      let dn := if dn0.isEmpty then n else dn0
      let r : Record :=
        { name := n
          display_name := dn
          aliases := jsStrArr (getField item ("aliases".data))
          functions := jsStrArr (getField item ("functions".data))
          health_rating :=
            match getField item ("health_rating".data) with
            | some (JsValue.num m) => some m
            | _ => none
          rating_rationale :=
            match getField item ("rating_rationale".data) with
            | some (JsValue.str t) => some t
            | _ => none
          potential_side_effects := jsStrArr (getField item ("potential_side_effects".data))
          source := "LLM".data
          source_details := some
            (match getField item ("source_details".data) with
             | some (JsValue.str t) =>
               if t.isEmpty then "Gemini 1.5 Flash analysis".data else t
             | _ => "Gemini 1.5 Flash analysis".data) }
      (upsertIfAbsent db r, [Effect.repoUpsert n])
  | _ => (db, [])

/-- The `for (const item of llmData.ingredients)` loop. -/
def persistItems (db : List Record) : List JsValue → List Record × List Effect
  | [] => (db, [])
  | item :: rest =>
    let step := processSaveItem db item
    let next := persistItems step.1 rest
    (next.1, step.2 ++ next.2)

/-- `if (llmData && llmData.ingredients && Array.isArray(llmData.ingredients))`:
persist each item of the array, otherwise do nothing. -/
def persistLlm (db : List Record) (v : JsValue) : List Record × List Effect :=
  if truthy v then
    match getField v ("ingredients".data) with
    | some (JsValue.arr items) => persistItems db items
    | _ => (db, [])
  else (db, [])

/-! ## The HTTP-level response and the request handler -/

/-- The `llmAnalysis` slot of the response: the parsed payload, or one of the
two tagged error objects
(`{error: "Failed to parse LLM response.", raw_response, attempted_parse_string}`
and `{error: "Failed to get analysis from LLM.", details}`). -/
inductive LlmAnalysis where
  | payload (v : JsValue)
  | parseError (raw_response attempted_parse_string : List Char)
  | callError (details : List Char)

/-- The possible response bodies of `getIngredientsAndCheckMissing`, one
constructor per literal message in the source. -/
inductive RespBody where
  | errTermsRequired
  | errProductType
  | errNoValidTerms
  | ok (dbData : List Record) (llmAnalysis : Option LlmAnalysis) (llmQueryTerms : List Char)
  | serverError

structure Response where
  status : Nat
  success : Bool
  body : RespBody

/-- The query-string part of the request. -/
structure QueryParams where
  terms : Option QueryVal
  productType : Option QueryVal

/-- `dbData` of a success body (`[]` elsewhere). -/
def respDbData : Response → List Record
  | ⟨_, _, RespBody.ok d _ _⟩ => d
  | _ => []

/-- `llmQueryTerms` of a success body (`""` elsewhere). -/
def respLlmQueryTerms : Response → List Char
  | ⟨_, _, RespBody.ok _ _ q⟩ => q
  | _ => []

/-- `llmAnalysis` of a success body. -/
def respLlmAnalysis : Response → Option LlmAnalysis
  | ⟨_, _, RespBody.ok _ a _⟩ => a
  | _ => none

def isLlmCallE : Effect → Bool
  | Effect.llmCall _ => true
  | _ => false

/-- `!productType || !["cosmetic","food"].includes(productType)` applied to
the already-lowercased value (an absent value and the falsy `""` both fail,
and `""` is not in the allow list anyway). -/
def productTypeInvalid : Option (List Char) → Bool
  | none => true
  | some s => !(decide (s = "cosmetic".data ∨ s = "food".data))

/-- The pipeline that runs once validation has passed: existence probe,
partition, hydration, single batched LLM call for the unknown terms,
fence extraction and parse, best-effort persistence, response assembly. -/
def runPipeline (normalized : List (List Char)) (db : List Record)
    (llm : Except (List Char) (List Char))
    (parseJson : List Char → Option JsValue) :
    Response × List Effect × List Record :=
  let termsInDB := (partsOf normalized db).1
  let termsNotInDB := (partsOf normalized db).2
  let dbData := hydratedOf normalized db
  let hydrEff : List Effect :=
    if termsInDB.isEmpty then [] else [Effect.repoFind termsInDB]
  let baseEffects := Effect.repoProbe normalized :: hydrEff
  if termsNotInDB.isEmpty then
    (⟨200, true, RespBody.ok dbData none []⟩, baseEffects, db)
  else
    let qstr := joinComma termsNotInDB
    match llm with
    | Except.error e =>
      (⟨200, true, RespBody.ok dbData (some (LlmAnalysis.callError e)) qstr⟩,
       baseEffects ++ [Effect.llmCall qstr], db)
    | Except.ok rawText =>
      let jsonString := cleanLlmText rawText
      match parseJson jsonString with
      | none =>
        (⟨200, true,
          RespBody.ok dbData (some (LlmAnalysis.parseError rawText jsonString)) qstr⟩,
         baseEffects ++ [Effect.llmCall qstr], db)
      | some v =>
        let saved := persistLlm db v
        (⟨200, true, RespBody.ok dbData (some (LlmAnalysis.payload v)) qstr⟩,
         baseEffects ++ [Effect.llmCall qstr] ++ saved.2, saved.1)

/-- `exports.getIngredientsAndCheckMissing`. Order of the source is kept:
`req.query.productType?.toLowerCase()` is evaluated first (throwing — hence
the 500 catch-all — on a present non-string value), then the terms-string
validation, then the product-type validation, then normalization. Returns
the response, the log of external calls, and the final store. -/
def getIngredientsAndCheckMissing (q : QueryParams) (db : List Record)
    (llm : Except (List Char) (List Char))
    (parseJson : List Char → Option JsValue) :
    Response × List Effect × List Record :=
  match q.productType with
  | some QueryVal.other => (⟨500, false, RespBody.serverError⟩, [], db)
  | _ =>
    let productType : Option (List Char) :=
      match q.productType with
      | some (QueryVal.str s) => some (jsToLower s)
      | _ => none
    match q.terms with
    | none => (⟨400, false, RespBody.errTermsRequired⟩, [], db)
    | some QueryVal.other => (⟨400, false, RespBody.errTermsRequired⟩, [], db)
    | some (QueryVal.str ts) =>
      if (jsTrim ts).isEmpty then (⟨400, false, RespBody.errTermsRequired⟩, [], db)
      else if productTypeInvalid productType then
        (⟨400, false, RespBody.errProductType⟩, [], db)
      else
        let normalized := normalizeTerms ts
        if normalized.isEmpty then (⟨400, false, RespBody.errNoValidTerms⟩, [], db)
        else runPipeline normalized db llm parseJson

/-! ## Concrete records for the scenario properties -/

def rWater : Record := { name := "water".data, display_name := "Water".data }

def rGlycerin : Record := { name := "glycerin".data, display_name := "Glycerin".data }

def rUnknownXYZ : Record := { name := "unknownxyz".data, display_name := "UnknownXYZ".data }

def rParfum : Record :=
  { name := "parfum".data, display_name := "Parfum".data, aliases := ["fragrance".data] }

/-! ## Helper lemmas -/

theorem mem_of_mem_jsTrim {c : Char} {s : List Char} (h : c ∈ jsTrim s) : c ∈ s := by
  rw [jsTrim, List.mem_reverse] at h
  have h1 : c ∈ (s.dropWhile Char.isWhitespace).reverse :=
    (List.dropWhile_sublist _).mem h
  rw [List.mem_reverse] at h1
  exact (List.dropWhile_sublist _).mem h1

theorem char_toNat_ofNat {m : Nat} (h : m < 55296) : (Char.ofNat m).toNat = m := by
  have hv : m.isValidChar := Or.inl h
  rw [Char.ofNat, dif_pos hv]
  rfl

theorem toLower_not_upper (c : Char) :
    ¬(65 ≤ (Char.toLower c).toNat ∧ (Char.toLower c).toNat ≤ 90) := by
  rw [Char.toLower]
  split
  · next h =>
    rw [char_toNat_ofNat (by omega)]
    omega
  · next h => omega

theorem mem_dedupFirstAux {t : List Char} :
    ∀ (ts seen : List (List Char)), t ∈ dedupFirstAux seen ts ↔ t ∈ ts ∧ t ∉ seen := by
  intro ts
  induction ts with
  | nil => simp [dedupFirstAux]
  | cons a as ih =>
    intro seen
    rw [dedupFirstAux]
    by_cases ha : a ∈ seen
    · rw [if_pos ha, ih]
      constructor
      · exact fun ⟨h1, h2⟩ => ⟨List.mem_cons_of_mem _ h1, h2⟩
      · rintro ⟨h1, h2⟩
        rcases List.mem_cons.1 h1 with rfl | h1
        · exact absurd ha h2
        · exact ⟨h1, h2⟩
    · rw [if_neg ha, List.mem_cons, ih]
      constructor
      · rintro (rfl | ⟨h1, h2⟩)
        · exact ⟨List.mem_cons_self _ _, ha⟩
        · exact ⟨List.mem_cons_of_mem _ h1, fun hs => h2 (List.mem_cons_of_mem _ hs)⟩
      · rintro ⟨h1, h2⟩
        by_cases hta : t = a
        · exact Or.inl hta
        · have h1' : t ∈ as := by
            rcases List.mem_cons.1 h1 with rfl | hm
            · exact absurd rfl hta
            · exact hm
          refine Or.inr ⟨h1', fun hs => ?_⟩
          rcases List.mem_cons.1 hs with rfl | hs
          · exact hta rfl
          · exact h2 hs

theorem mem_dedupFirst {t : List Char} {ts : List (List Char)} :
    t ∈ dedupFirst ts ↔ t ∈ ts := by
  rw [dedupFirst, mem_dedupFirstAux]
  simp

theorem upsert_absent {db : List Record} {r : Record}
    (h : ¬∃ x ∈ db, x.name = r.name) : upsertIfAbsent db r = db ++ [r] := by
  rw [upsertIfAbsent, if_neg h]

theorem upsert_present {db : List Record} {r : Record}
    (h : ∃ x ∈ db, x.name = r.name) : upsertIfAbsent db r = db := by
  rw [upsertIfAbsent, if_pos h]

theorem countName_absent {db : List Record} {n : List Char}
    (h : ¬∃ x ∈ db, x.name = n) : countName db n = 0 := by
  rw [countName, List.length_eq_zero, List.filter_eq_nil_iff]
  intro a ha
  simp only [decide_eq_true_eq]
  exact fun hne => h ⟨a, ha, hne⟩

theorem upsert_twice {db : List Record} {r1 r2 : Record}
    (hn : r1.name = r2.name) (h : ¬∃ x ∈ db, x.name = r1.name) :
    countName (upsertIfAbsent (upsertIfAbsent db r1) r2) r1.name = 1 ∧
    upsertIfAbsent (upsertIfAbsent db r1) r2 = upsertIfAbsent db r1 := by
  have h1 : upsertIfAbsent db r1 = db ++ [r1] := upsert_absent h
  have h2 : upsertIfAbsent (db ++ [r1]) r2 = db ++ [r1] :=
    upsert_present ⟨r1, by simp, hn⟩
  refine ⟨?_, by rw [h1, h2]⟩
  rw [h1, h2, countName, List.filter_append, List.length_append]
  have hc : countName db r1.name = 0 := countName_absent h
  rw [countName] at hc
  rw [hc]
  simp

theorem upsert_extends (db : List Record) (r : Record) :
    ∃ ext, upsertIfAbsent db r = db ++ ext := by
  rw [upsertIfAbsent]
  split
  · exact ⟨[], by simp⟩
  · exact ⟨[r], rfl⟩

theorem processSaveItem_extends (db : List Record) (item : JsValue) :
    ∃ ext, (processSaveItem db item).1 = db ++ ext := by
  rcases hf : getField item ("ingredient_name".data) with _ | v
  · rw [processSaveItem, hf]
    exact ⟨[], by simp⟩
  · rcases v with _ | b | m | s | es | fs
    · rw [processSaveItem, hf]
      exact ⟨[], by simp⟩
    · rw [processSaveItem, hf]
      exact ⟨[], by simp⟩
    · rw [processSaveItem, hf]
      exact ⟨[], by simp⟩
    · rw [processSaveItem, hf]
      by_cases hn : (jsTrim (jsToLower s)).isEmpty
      · simp only [hn, if_true]
        exact ⟨[], by simp⟩
      · simp only [hn, if_false, Bool.false_eq_true]
        exact upsert_extends db _
    · rw [processSaveItem, hf]
      exact ⟨[], by simp⟩
    · rw [processSaveItem, hf]
      exact ⟨[], by simp⟩

theorem persistItems_extends :
    ∀ (items : List JsValue) (db : List Record),
      ∃ ext, (persistItems db items).1 = db ++ ext := by
  intro items
  induction items with
  | nil => exact fun db => ⟨[], by simp [persistItems]⟩
  | cons item rest ih =>
    intro db
    obtain ⟨e1, he1⟩ := processSaveItem_extends db item
    obtain ⟨e2, he2⟩ := ih (processSaveItem db item).1
    refine ⟨e1 ++ e2, ?_⟩
    show (persistItems (processSaveItem db item).1 rest).1 = db ++ (e1 ++ e2)
    rw [he2, he1, List.append_assoc]

theorem persistLlm_extends (db : List Record) (v : JsValue) :
    ∃ ext, (persistLlm db v).1 = db ++ ext := by
  rw [persistLlm]
  split
  · split
    · exact persistItems_extends _ db
    · exact ⟨[], by simp⟩
  · exact ⟨[], by simp⟩

theorem runPipeline_extends (normalized : List (List Char)) (db : List Record)
    (llm : Except (List Char) (List Char)) (p : List Char → Option JsValue) :
    ∃ ext, (runPipeline normalized db llm p).2.2 = db ++ ext := by
  rw [runPipeline]
  split
  · exact ⟨[], by simp⟩
  · cases llm with
    | error e => exact ⟨[], by simp⟩
    | ok rawText =>
      cases hp : p (cleanLlmText rawText) with
      | none => exact ⟨[], by simp [hp]⟩
      | some v =>
        obtain ⟨ext, he⟩ := persistLlm_extends db v
        exact ⟨ext, by simp [hp, he]⟩

theorem handler_extends (q : QueryParams) (db : List Record)
    (llm : Except (List Char) (List Char)) (p : List Char → Option JsValue) :
    ∃ ext, (getIngredientsAndCheckMissing q db llm p).2.2 = db ++ ext := by
  obtain ⟨tq, pq⟩ := q
  have hts : ∀ s : List Char,
      ∃ ext, (if (normalizeTerms s).isEmpty then
                (⟨400, false, RespBody.errNoValidTerms⟩, ([] : List Effect), db)
              else runPipeline (normalizeTerms s) db llm p).2.2 = db ++ ext := by
    intro s
    split
    · exact ⟨[], by simp⟩
    · exact runPipeline_extends _ db llm p
  rcases pq with _ | v
  · rcases tq with _ | w
    · exact ⟨[], by simp [getIngredientsAndCheckMissing]⟩
    · rcases w with s | _
      · simp only [getIngredientsAndCheckMissing]
        split
        · exact ⟨[], by simp⟩
        · exact ⟨[], by simp [productTypeInvalid]⟩
      · exact ⟨[], by simp [getIngredientsAndCheckMissing]⟩
  · rcases v with s | _
    · rcases tq with _ | w
      · exact ⟨[], by simp [getIngredientsAndCheckMissing]⟩
      · rcases w with ts | _
        · simp only [getIngredientsAndCheckMissing]
          split
          · exact ⟨[], by simp⟩
          · split
            · exact ⟨[], by simp⟩
            · exact hts ts
        · exact ⟨[], by simp [getIngredientsAndCheckMissing]⟩
    · exact ⟨[], by simp [getIngredientsAndCheckMissing]⟩

theorem processSaveItem_no_llm (db : List Record) (item : JsValue) :
    ((processSaveItem db item).2).filter isLlmCallE = [] := by
  rcases hf : getField item ("ingredient_name".data) with _ | v
  · rw [processSaveItem, hf]
    rfl
  · rcases v with _ | b | m | s | es | fs
    · rw [processSaveItem, hf]
      rfl
    · rw [processSaveItem, hf]
      rfl
    · rw [processSaveItem, hf]
      rfl
    · rw [processSaveItem, hf]
      by_cases hn : (jsTrim (jsToLower s)).isEmpty
      · simp only [hn, if_true]
        rfl
      · simp only [hn, if_false, Bool.false_eq_true]
        simp [isLlmCallE]
    · rw [processSaveItem, hf]
      rfl
    · rw [processSaveItem, hf]
      rfl

theorem persistItems_no_llm :
    ∀ (items : List JsValue) (db : List Record),
      ((persistItems db items).2).filter isLlmCallE = [] := by
  intro items
  induction items with
  | nil => intro db; rfl
  | cons item rest ih =>
    intro db
    show ((processSaveItem db item).2 ++ (persistItems (processSaveItem db item).1 rest).2).filter
        isLlmCallE = []
    rw [List.filter_append, processSaveItem_no_llm, ih]
    rfl

theorem persistLlm_no_llm (db : List Record) (v : JsValue) :
    ((persistLlm db v).2).filter isLlmCallE = [] := by
  rw [persistLlm]
  split
  · split
    · exact persistItems_no_llm _ db
    · rfl
  · rfl

/-! ## Claim theorems -/

/-- **C4.** The normalizer splits the raw string on commas, lowercases each
token, strips every bracket character, trims surrounding whitespace, and
discards tokens that become empty; consequently its output never contains the
empty string, an ASCII uppercase letter (code points 65–90), or a bracket
character, and `"Water, (Glycerin)"` yields exactly `["water", "glycerin"]`. -/
theorem normalizer_contract :
    (∀ s : List Char, [] ∉ normalizeTerms s) ∧
    (∀ (s t : List Char) (c : Char), t ∈ normalizeTerms s → c ∈ t →
      ¬(65 ≤ c.toNat ∧ c.toNat ≤ 90) ∧ isBracketChar c = false) ∧
    normalizeTerms ("Water, (Glycerin)".data) = ["water".data, "glycerin".data] := by
  refine ⟨?_, ?_, by decide⟩
  · intro s h
    rw [normalizeTerms, List.mem_filter] at h
    simp at h
  · intro s t c ht hc
    rw [normalizeTerms, List.mem_filter, List.mem_map] at ht
    obtain ⟨⟨tok, _, rfl⟩, _⟩ := ht
    have hc1 : c ∈ stripBrackets (jsToLower tok) := mem_of_mem_jsTrim hc
    rw [stripBrackets, List.mem_filter] at hc1
    obtain ⟨hc2, hb⟩ := hc1
    constructor
    · rw [jsToLower, List.mem_map] at hc2
      obtain ⟨c0, _, rfl⟩ := hc2
      exact toLower_not_upper c0
    · simpa using hb

theorem normalizer_contract_witness :
    ¬(65 ≤ ('w' : Char).toNat ∧ ('w' : Char).toNat ≤ 90) ∧ isBracketChar 'w' = false :=
  normalizer_contract.2.1 ("Water".data) ("water".data) 'w' (by decide) (by decide)

/-- **C2.** `upsertIfAbsent` inserts the record exactly when no record with
the same `name` exists; when one exists the call leaves the store completely
unchanged; two calls with the same `name` over a store not containing it
yield exactly one stored record with that name, the second call being a
no-op rather than an error; and no run of the pipeline ever deletes or
mutates an existing record — the final store is always the initial store
plus appended new records. -/
theorem upsertIfAbsent_spec :
    (∀ (db : List Record) (r : Record), ¬(∃ x ∈ db, x.name = r.name) →
       upsertIfAbsent db r = db ++ [r]) ∧
    (∀ (db : List Record) (r : Record), (∃ x ∈ db, x.name = r.name) →
       upsertIfAbsent db r = db) ∧
    (∀ (db : List Record) (r1 r2 : Record), r1.name = r2.name →
       ¬(∃ x ∈ db, x.name = r1.name) →
       countName (upsertIfAbsent (upsertIfAbsent db r1) r2) r1.name = 1 ∧
       upsertIfAbsent (upsertIfAbsent db r1) r2 = upsertIfAbsent db r1) ∧
    (∀ (q : QueryParams) (db : List Record) (llm : Except (List Char) (List Char))
       (p : List Char → Option JsValue),
       ∃ ext, (getIngredientsAndCheckMissing q db llm p).2.2 = db ++ ext) :=
  ⟨fun _ _ h => upsert_absent h, fun _ _ h => upsert_present h,
   fun _ _ _ hn h => upsert_twice hn h, handler_extends⟩

theorem upsertIfAbsent_spec_witness :
    upsertIfAbsent [] rWater = [rWater] ∧
    countName (upsertIfAbsent (upsertIfAbsent [] rWater) rWater) rWater.name = 1 :=
  ⟨upsertIfAbsent_spec.1 [] rWater (by simp),
   (upsertIfAbsent_spec.2.2.1 [] rWater rWater rfl (by simp)).1⟩

/-- **C9.** Two writers persisting records with the same name over a store
where that name is absent leave exactly one record with that name, in either
interleaving of the two atomic conditional inserts, and the later write is a
silent no-op on the store produced by the earlier one. -/
theorem concurrent_upsert_single :
    ∀ (db : List Record) (r1 r2 : Record), r1.name = r2.name →
      ¬(∃ x ∈ db, x.name = r1.name) →
      countName (upsertIfAbsent (upsertIfAbsent db r1) r2) r1.name = 1 ∧
      countName (upsertIfAbsent (upsertIfAbsent db r2) r1) r1.name = 1 ∧
      upsertIfAbsent (upsertIfAbsent db r1) r2 = upsertIfAbsent db r1 ∧
      upsertIfAbsent (upsertIfAbsent db r2) r1 = upsertIfAbsent db r2 := by
  intro db r1 r2 hn h
  have h2 : ¬(∃ x ∈ db, x.name = r2.name) := by rw [← hn]; exact h
  obtain ⟨c1, e1⟩ := upsert_twice hn h
  obtain ⟨c2, e2⟩ := upsert_twice hn.symm h2
  refine ⟨c1, ?_, e1, e2⟩
  rw [hn]
  exact c2

def rNewstuffA : Record := { name := "newstuff".data, display_name := "NewStuff".data }

def rNewstuffB : Record :=
  { name := "newstuff".data, display_name := "newstuff".data, aliases := ["ns".data] }

theorem concurrent_upsert_single_witness :
    countName (upsertIfAbsent (upsertIfAbsent [] rNewstuffA) rNewstuffB) rNewstuffA.name = 1 ∧
    upsertIfAbsent (upsertIfAbsent [] rNewstuffA) rNewstuffB = upsertIfAbsent [] rNewstuffA :=
  ⟨(concurrent_upsert_single [] rNewstuffA rNewstuffB rfl (by simp)).1,
   (concurrent_upsert_single [] rNewstuffA rNewstuffB rfl (by simp)).2.2.1⟩

/-- **C1.** Over the distinct normalized terms (the deduplicated list, which
carries exactly the terms of the normalized input), the partition step puts a
term into the known side exactly when the membership set built from the
existence probe has it and into the unknown side exactly otherwise; the two
sides cover the distinct terms and are disjoint; and the membership set holds
exactly the names and aliases of the records the probe returned. -/
theorem partition_known_unknown (normalized : List (List Char)) (db : List Record) :
    (∀ t, t ∈ dedupFirst normalized ↔ t ∈ normalized) ∧
    (∀ t, t ∈ (partsOf normalized db).1 ↔
       t ∈ dedupFirst normalized ∧
       t ∈ foundDbIdentifiers (findByTerms normalized db)) ∧
    (∀ t, t ∈ (partsOf normalized db).2 ↔
       t ∈ dedupFirst normalized ∧
       t ∉ foundDbIdentifiers (findByTerms normalized db)) ∧
    (∀ t, (t ∈ (partsOf normalized db).1 ∨ t ∈ (partsOf normalized db).2) ↔
       t ∈ dedupFirst normalized) ∧
    (∀ t, ¬(t ∈ (partsOf normalized db).1 ∧ t ∈ (partsOf normalized db).2)) ∧
    (∀ x, x ∈ foundDbIdentifiers (findByTerms normalized db) ↔
       ∃ r ∈ findByTerms normalized db, x = r.name ∨ x ∈ r.aliases) := by
  refine ⟨fun t => mem_dedupFirst, ?_, ?_, ?_, ?_, ?_⟩
  · intro t
    simp [partsOf, partitionTerms, List.mem_filter]
  · intro t
    simp [partsOf, partitionTerms, List.mem_filter]
  · intro t
    simp only [partsOf, partitionTerms, List.mem_filter, decide_eq_true_eq]
    tauto
  · intro t
    simp only [partsOf, partitionTerms, List.mem_filter, decide_eq_true_eq]
    tauto
  · intro x
    rw [foundDbIdentifiers]
    simp [List.mem_flatMap]

theorem partition_known_unknown_witness :
    "water".data ∈ (partsOf ["water".data] [rWater]).1 ↔
      ("water".data ∈ dedupFirst ["water".data] ∧
       "water".data ∈ foundDbIdentifiers (findByTerms ["water".data] [rWater])) :=
  (partition_known_unknown ["water".data] [rWater]).2.1 "water".data

theorem filterMap_validTerm (ts : List (List Char)) (h : ∀ t ∈ ts, t ≠ []) :
    (ts.map JsValue.str).filterMap validTermFilter = ts := by
  induction ts with
  | nil => rfl
  | cons a as ih =>
    have ha : a.isEmpty = false := by
      cases a with
      | nil => exact absurd rfl (h [] (List.mem_cons_self _ _))
      | cons x xs => rfl
    simp [List.filterMap_cons, validTermFilter, ha,
      ih (fun t ht => h t (List.mem_cons_of_mem _ ht))]

/-- **C5.** `findByTerms` returns exactly the records whose `name` or some
`aliases` entry is among the given (non-empty string) terms — in particular a
record aliased `fragrance` is found when searching for `fragrance` — while a
non-array, empty, or all-invalid input yields the empty list without error. -/
theorem findByTerms_spec :
    (∀ (db : List Record) (ts : List (List Char)), (∀ t ∈ ts, t ≠ []) →
       ∀ r, r ∈ findByTerms ts db ↔
         r ∈ db ∧ (r.name ∈ ts ∨ ∃ a ∈ r.aliases, a ∈ ts)) ∧
    findByTerms ["fragrance".data] [rParfum] = [rParfum] ∧
    (∀ db : List Record, findByTermsJs JsInput.notArray db = []) ∧
    (∀ db : List Record, findByTermsJs (JsInput.array []) db = []) ∧
    (∀ (db : List Record) (elems : List JsValue),
       elems.filterMap validTermFilter = [] →
       findByTermsJs (JsInput.array elems) db = []) := by
  refine ⟨?_, by decide, fun db => rfl, fun db => rfl, ?_⟩
  · intro db ts h r
    rcases ts with _ | ⟨t0, ts'⟩
    · simp [findByTerms, findByTermsJs]
    · have hv : ((t0 :: ts').map JsValue.str).filterMap validTermFilter = t0 :: ts' :=
        filterMap_validTerm _ h
      rw [findByTerms, findByTermsJs]
      simp only [hv]
      simp [List.mem_filter]
  · intro db elems he
    rw [findByTermsJs]
    by_cases h0 : elems.isEmpty
    · simp [h0]
    · simp [h0, he]

theorem findByTerms_spec_witness :
    rParfum ∈ findByTerms ["fragrance".data] [rParfum] ↔
      (rParfum ∈ [rParfum] ∧
       (rParfum.name ∈ ["fragrance".data] ∨ ∃ a ∈ rParfum.aliases, a ∈ ["fragrance".data])) :=
  findByTerms_spec.1 [rParfum] ["fragrance".data] (by decide) rParfum

/-- The extraction rule exactly as the specification sentence words it:
whenever the trimmed text contains a fenced code block, the trimmed contents
of the first such block are what gets parsed. -/
def claimedExtract (rawText : List Char) : List Char :=
  match firstFenceMatch (jsTrim rawText) with
  | some cap => jsTrim cap
  | none => jsTrim rawText

/-- The amended extraction rule: the first fenced block's trimmed contents
are used only when the captured contents are non-empty; when the capture is
empty (a falsy string in JavaScript) or no block exists, the entire trimmed
raw text is parsed instead. -/
def amendedExtract (rawText : List Char) : List Char :=
  match firstFenceMatch (jsTrim rawText) with
  | some cap => if cap.isEmpty then jsTrim rawText else jsTrim cap
  | none => jsTrim rawText

/-- **C7 (counterexample).** On the raw text consisting of six backticks the
regex finds a fenced block whose captured contents are empty, yet the code
parses the whole trimmed text — not the block's (empty) trimmed contents as
the claim states. -/
theorem fence_extraction_counterexample :
    firstFenceMatch (jsTrim ("``````".data)) = some [] ∧
    cleanLlmText ("``````".data) = "``````".data ∧
    claimedExtract ("``````".data) = [] ∧
    cleanLlmText ("``````".data) ≠ claimedExtract ("``````".data) := by
  refine ⟨by decide, by decide, by decide, by decide⟩

/-- **C7 (amended).** The string handed to `JSON.parse` is the trimmed raw
text unless a fenced block with a non-empty capture is found, in which case
it is the capture, trimmed; concrete fenced (with and without the `json`
tag) and fence-free responses extract as expected. -/
theorem fence_extraction_amended :
    (∀ rawText, cleanLlmText rawText = amendedExtract rawText) ∧
    cleanLlmText ("```json\n[1, 2]\n```".data) = "[1, 2]".data ∧
    cleanLlmText ("```\n[3]\n```".data) = "[3]".data ∧
    cleanLlmText ("  [4, 5] ".data) = "[4, 5]".data := by
  refine ⟨fun rawText => rfl, by decide, by decide, by decide⟩

/-- **C6 (counterexample).** A request whose category selector is present but
not a string (express produces an array for a repeated parameter) — hence not
one of the allowed values — is answered with a 500 server fault, not the
client-visible 400 `InvalidInput` the claim demands (though indeed no
repository or model call is made). -/
theorem validation_nonstring_category_cex :
    getIngredientsAndCheckMissing
        ⟨some (QueryVal.str "water".data), some QueryVal.other⟩ [] (Except.error [])
        (fun _ => none) =
      (⟨500, false, RespBody.serverError⟩, [], []) ∧
    (getIngredientsAndCheckMissing
        ⟨some (QueryVal.str "water".data), some QueryVal.other⟩ [] (Except.error [])
        (fun _ => none)).1.status ≠ 400 :=
  ⟨rfl, by decide⟩

/-- **C6 (amended).** Provided the category selector is absent or a string,
every malformed request — terms absent, not a string, or whitespace-only;
category absent or (case-insensitively) not `cosmetic`/`food`; or a term
list that normalizes to empty — is rejected with a 400 `success: false`
response and no repository or model call; a present non-string category
selector instead yields a 500 server fault, also without any call. -/
theorem validation_fail_fast :
    (∀ (tv : Option QueryVal) (db : List Record) (llm : Except (List Char) (List Char))
       (p : List Char → Option JsValue),
       getIngredientsAndCheckMissing ⟨tv, some QueryVal.other⟩ db llm p =
         (⟨500, false, RespBody.serverError⟩, [], db)) ∧
    (∀ (pt : Option QueryVal) (db : List Record) (llm : Except (List Char) (List Char))
       (p : List Char → Option JsValue), pt ≠ some QueryVal.other →
       ∀ tv : Option QueryVal,
         (tv = none ∨ tv = some QueryVal.other ∨
          ∃ ts, tv = some (QueryVal.str ts) ∧ (jsTrim ts).isEmpty = true) →
         getIngredientsAndCheckMissing ⟨tv, pt⟩ db llm p =
           (⟨400, false, RespBody.errTermsRequired⟩, [], db)) ∧
    (∀ (ts : List Char) (db : List Record) (llm : Except (List Char) (List Char))
       (p : List Char → Option JsValue), (jsTrim ts).isEmpty = false →
       getIngredientsAndCheckMissing ⟨some (QueryVal.str ts), none⟩ db llm p =
         (⟨400, false, RespBody.errProductType⟩, [], db)) ∧
    (∀ (ts s : List Char) (db : List Record) (llm : Except (List Char) (List Char))
       (p : List Char → Option JsValue), (jsTrim ts).isEmpty = false →
       productTypeInvalid (some (jsToLower s)) = true →
       getIngredientsAndCheckMissing ⟨some (QueryVal.str ts), some (QueryVal.str s)⟩
           db llm p =
         (⟨400, false, RespBody.errProductType⟩, [], db)) ∧
    (∀ (ts s : List Char) (db : List Record) (llm : Except (List Char) (List Char))
       (p : List Char → Option JsValue), (jsTrim ts).isEmpty = false →
       productTypeInvalid (some (jsToLower s)) = false →
       (normalizeTerms ts).isEmpty = true →
       getIngredientsAndCheckMissing ⟨some (QueryVal.str ts), some (QueryVal.str s)⟩
           db llm p =
         (⟨400, false, RespBody.errNoValidTerms⟩, [], db)) := by
  refine ⟨fun tv db llm p => rfl, ?_, ?_, ?_, ?_⟩
  · intro pt db llm p hpt tv htv
    rcases pt with _ | v
    · rcases htv with rfl | rfl | ⟨ts, rfl, hts⟩
      · rfl
      · rfl
      · simp [getIngredientsAndCheckMissing, hts]
    · rcases v with s | _
      · rcases htv with rfl | rfl | ⟨ts, rfl, hts⟩
        · rfl
        · rfl
        · simp [getIngredientsAndCheckMissing, hts]
      · exact absurd rfl hpt
  · intro ts db llm p h
    simp [getIngredientsAndCheckMissing, h, productTypeInvalid]
  · intro ts s db llm p h1 h2
    simp [getIngredientsAndCheckMissing, h1, h2]
  · intro ts s db llm p h1 h2 h3
    simp [getIngredientsAndCheckMissing, h1, h2, h3]

theorem validation_fail_fast_witness :
    getIngredientsAndCheckMissing ⟨some (QueryVal.str "water".data), none⟩ []
        (Except.error []) (fun _ => none) =
      (⟨400, false, RespBody.errProductType⟩, [], []) :=
  validation_fail_fast.2.2.1 "water".data [] (Except.error []) (fun _ => none) (by decide)

theorem runPipeline_body_ok (normalized : List (List Char)) (db : List Record)
    (llm : Except (List Char) (List Char)) (p : List Char → Option JsValue) :
    ∃ d a qs, (runPipeline normalized db llm p).1.body = RespBody.ok d a qs := by
  rw [runPipeline]
  split
  · exact ⟨_, _, _, rfl⟩
  · cases llm with
    | error e => exact ⟨_, _, _, rfl⟩
    | ok rawText =>
      cases hp : p (cleanLlmText rawText) with
      | none =>
        exact ⟨hydratedOf normalized db,
          some (LlmAnalysis.parseError rawText (cleanLlmText rawText)),
          joinComma (partsOf normalized db).2, by simp [hp]⟩
      | some v =>
        exact ⟨hydratedOf normalized db, some (LlmAnalysis.payload v),
          joinComma (partsOf normalized db).2, by simp [hp]⟩

/-- **C10.** With a valid terms string, the request fails category validation
exactly when the lowercased `productType` string is neither `cosmetic` nor
`food`; in particular `Food` and `COSMETIC` lowercase to allowed values, and
a request with category `Food` is not rejected by category validation. -/
theorem productType_case_insensitive :
    (∀ (ts s : List Char) (db : List Record) (llm : Except (List Char) (List Char))
       (p : List Char → Option JsValue), (jsTrim ts).isEmpty = false →
       ((getIngredientsAndCheckMissing ⟨some (QueryVal.str ts), some (QueryVal.str s)⟩
           db llm p).1.body = RespBody.errProductType ↔
        ¬(jsToLower s = "cosmetic".data ∨ jsToLower s = "food".data))) ∧
    jsToLower ("Food".data) = "food".data ∧
    jsToLower ("COSMETIC".data) = "cosmetic".data ∧
    (∀ (db : List Record) (llm : Except (List Char) (List Char))
       (p : List Char → Option JsValue),
       (getIngredientsAndCheckMissing
           ⟨some (QueryVal.str "water".data), some (QueryVal.str "Food".data)⟩
           db llm p).1.body ≠ RespBody.errProductType) := by
  have main : ∀ (ts s : List Char) (db : List Record)
      (llm : Except (List Char) (List Char)) (p : List Char → Option JsValue),
      (jsTrim ts).isEmpty = false →
      ((getIngredientsAndCheckMissing ⟨some (QueryVal.str ts), some (QueryVal.str s)⟩
          db llm p).1.body = RespBody.errProductType ↔
       ¬(jsToLower s = "cosmetic".data ∨ jsToLower s = "food".data)) := by
    intro ts s db llm p h
    constructor
    · intro hb hmem
      have hinv : productTypeInvalid (some (jsToLower s)) = false := by
        simp [productTypeInvalid]
        exact hmem.resolve_left
      simp only [getIngredientsAndCheckMissing, h, hinv, Bool.false_eq_true,
        if_false] at hb
      cases hn : (normalizeTerms ts).isEmpty with
      | true => simp [hn] at hb
      | false =>
        rw [if_neg (by simp [hn])] at hb
        obtain ⟨d, a, qs, hok⟩ := runPipeline_body_ok (normalizeTerms ts) db llm p
        rw [hok] at hb
        exact RespBody.noConfusion hb
    · intro hnotin
      have hinv : productTypeInvalid (some (jsToLower s)) = true := by
        simp [productTypeInvalid]
        exact not_or.mp hnotin
      simp [getIngredientsAndCheckMissing, h, hinv]
  refine ⟨main, by decide, by decide, ?_⟩
  intro db llm p hb
  exact (main "water".data "Food".data db llm p (by decide)).mp hb (by decide)

theorem productType_case_insensitive_witness :
    (getIngredientsAndCheckMissing
        ⟨some (QueryVal.str "water".data), some (QueryVal.str "COSMETIC".data)⟩ []
        (Except.error []) (fun _ => none)).1.body = RespBody.errProductType ↔
      ¬(jsToLower ("COSMETIC".data) = "cosmetic".data ∨
        jsToLower ("COSMETIC".data) = "food".data) :=
  productType_case_insensitive.1 "water".data "COSMETIC".data [] (Except.error [])
    (fun _ => none) (by decide)

/-- **C3.** When the pipeline reaches the enrichment step (valid request,
some unknown terms) and the model call fails, or its response does not parse
as JSON, the handler still answers 200/`success: true` with the hydrated
known records unchanged, the enrichment slot holding the tagged error object
(the cause for a call failure; the raw response and attempted-parse string
for a parse failure), and the store untouched — neither failure aborts the
request. -/
theorem enrichment_failure_isolation :
    ∀ (ts s : List Char) (db : List Record) (parseJson : List Char → Option JsValue),
      (jsTrim ts).isEmpty = false →
      productTypeInvalid (some (jsToLower s)) = false →
      (normalizeTerms ts).isEmpty = false →
      ((partsOf (normalizeTerms ts) db).2).isEmpty = false →
      (∀ e : List Char,
        (getIngredientsAndCheckMissing ⟨some (QueryVal.str ts), some (QueryVal.str s)⟩
            db (Except.error e) parseJson).1 =
          ⟨200, true, RespBody.ok (hydratedOf (normalizeTerms ts) db)
            (some (LlmAnalysis.callError e))
            (joinComma (partsOf (normalizeTerms ts) db).2)⟩ ∧
        (getIngredientsAndCheckMissing ⟨some (QueryVal.str ts), some (QueryVal.str s)⟩
            db (Except.error e) parseJson).2.2 = db) ∧
      (∀ rawText : List Char, parseJson (cleanLlmText rawText) = none →
        (getIngredientsAndCheckMissing ⟨some (QueryVal.str ts), some (QueryVal.str s)⟩
            db (Except.ok rawText) parseJson).1 =
          ⟨200, true, RespBody.ok (hydratedOf (normalizeTerms ts) db)
            (some (LlmAnalysis.parseError rawText (cleanLlmText rawText)))
            (joinComma (partsOf (normalizeTerms ts) db).2)⟩ ∧
        (getIngredientsAndCheckMissing ⟨some (QueryVal.str ts), some (QueryVal.str s)⟩
            db (Except.ok rawText) parseJson).2.2 = db) := by
  intro ts s db parseJson h1 h2 h3 h4
  constructor
  · intro e
    constructor
    · simp [getIngredientsAndCheckMissing, h1, h2, h3, runPipeline, h4]
    · simp [getIngredientsAndCheckMissing, h1, h2, h3, runPipeline, h4]
  · intro rawText hp
    constructor
    · simp [getIngredientsAndCheckMissing, h1, h2, h3, runPipeline, h4, hp]
    · simp [getIngredientsAndCheckMissing, h1, h2, h3, runPipeline, h4, hp]

theorem enrichment_failure_isolation_witness :
    (getIngredientsAndCheckMissing
        ⟨some (QueryVal.str "water".data), some (QueryVal.str "food".data)⟩ []
        (Except.error "boom".data) (fun _ => none)).1 =
      ⟨200, true, RespBody.ok (hydratedOf (normalizeTerms ("water".data)) [])
        (some (LlmAnalysis.callError ("boom".data)))
        (joinComma (partsOf (normalizeTerms ("water".data)) []).2)⟩ ∧
    (getIngredientsAndCheckMissing
        ⟨some (QueryVal.str "water".data), some (QueryVal.str "food".data)⟩ []
        (Except.error "boom".data) (fun _ => none)).2.2 = [] :=
  (enrichment_failure_isolation "water".data "food".data [] (fun _ => none)
      (by decide) (by decide) (by decide) (by decide)).1 "boom".data

/-- The end-to-end scenario request: the fixed terms string and category
applied to a given store, model-call outcome and parse oracle. -/
def scenarioOut (db : List Record) (llm : Except (List Char) (List Char))
    (parseJson : List Char → Option JsValue) : Response × List Effect × List Record :=
  getIngredientsAndCheckMissing
    ⟨some (QueryVal.str "Water,Glycerin,UnknownXYZ".data),
     some (QueryVal.str "cosmetic".data)⟩ db llm parseJson

/-- **C8.** With records for `water` and `glycerin` pre-existing and nothing
matching `unknownxyz`, processing `"Water,Glycerin,UnknownXYZ"` with category
`cosmetic` succeeds with `dbData` holding exactly the two pre-existing
records and `llmQueryTerms = "unknownxyz"`, the enrichment client being
invoked exactly once, for exactly that term — whatever the model call and
parse outcomes; and when all three terms pre-exist, `llmQueryTerms` is the
empty string and the enrichment client is not invoked at all. -/
theorem process_list_scenario :
    ∀ (llm : Except (List Char) (List Char)) (parseJson : List Char → Option JsValue),
      ((scenarioOut [rWater, rGlycerin] llm parseJson).1.status = 200 ∧
       (scenarioOut [rWater, rGlycerin] llm parseJson).1.success = true ∧
       respDbData (scenarioOut [rWater, rGlycerin] llm parseJson).1 =
         [rWater, rGlycerin] ∧
       respLlmQueryTerms (scenarioOut [rWater, rGlycerin] llm parseJson).1 =
         "unknownxyz".data ∧
       ((scenarioOut [rWater, rGlycerin] llm parseJson).2.1).filter isLlmCallE =
         [Effect.llmCall ("unknownxyz".data)]) ∧
      ((scenarioOut [rWater, rGlycerin, rUnknownXYZ] llm parseJson).1.status = 200 ∧
       respLlmQueryTerms (scenarioOut [rWater, rGlycerin, rUnknownXYZ] llm parseJson).1 =
         [] ∧
       ((scenarioOut [rWater, rGlycerin, rUnknownXYZ] llm parseJson).2.1).filter
         isLlmCallE = []) := by
  intro llm parseJson
  constructor
  · cases llm with
    | error e =>
      have hout : scenarioOut [rWater, rGlycerin] (Except.error e) parseJson =
          (⟨200, true, RespBody.ok [rWater, rGlycerin]
             (some (LlmAnalysis.callError e)) ("unknownxyz".data)⟩,
           [Effect.repoProbe ["water".data, "glycerin".data, "unknownxyz".data],
            Effect.repoFind ["water".data, "glycerin".data],
            Effect.llmCall ("unknownxyz".data)], [rWater, rGlycerin]) := rfl
      rw [hout]
      refine ⟨rfl, rfl, rfl, rfl, rfl⟩
    | ok rawText =>
      have hred : scenarioOut [rWater, rGlycerin] (Except.ok rawText) parseJson =
          (match parseJson (cleanLlmText rawText) with
           | none =>
             (⟨200, true, RespBody.ok [rWater, rGlycerin]
                (some (LlmAnalysis.parseError rawText (cleanLlmText rawText)))
                ("unknownxyz".data)⟩,
              [Effect.repoProbe ["water".data, "glycerin".data, "unknownxyz".data],
               Effect.repoFind ["water".data, "glycerin".data],
               Effect.llmCall ("unknownxyz".data)], [rWater, rGlycerin])
           | some v =>
             (⟨200, true, RespBody.ok [rWater, rGlycerin]
                (some (LlmAnalysis.payload v)) ("unknownxyz".data)⟩,
              [Effect.repoProbe ["water".data, "glycerin".data, "unknownxyz".data],
               Effect.repoFind ["water".data, "glycerin".data],
               Effect.llmCall ("unknownxyz".data)] ++
                (persistLlm [rWater, rGlycerin] v).2,
              (persistLlm [rWater, rGlycerin] v).1)) := rfl
      cases hp : parseJson (cleanLlmText rawText) with
      | none =>
        rw [hp] at hred
        rw [hred]
        refine ⟨rfl, rfl, rfl, rfl, rfl⟩
      | some v =>
        rw [hp] at hred
        rw [hred]
        refine ⟨rfl, rfl, rfl, rfl, ?_⟩
        rw [List.filter_append, persistLlm_no_llm]
        rfl
  · have hout2 : scenarioOut [rWater, rGlycerin, rUnknownXYZ] llm parseJson =
        (⟨200, true, RespBody.ok [rWater, rGlycerin, rUnknownXYZ] none []⟩,
         [Effect.repoProbe ["water".data, "glycerin".data, "unknownxyz".data],
          Effect.repoFind ["water".data, "glycerin".data, "unknownxyz".data]],
         [rWater, rGlycerin, rUnknownXYZ]) := rfl
    rw [hout2]
    exact ⟨rfl, rfl, rfl⟩

end FoodScan
